import Mathlib

/-!
Shallow embedding of `src/lib/date-utils.ts` of the Digital_locker
repository: filename codec, document lifecycle (trash / restore / purge /
permanent delete) and the listing service.  JavaScript strings are modelled
as `List Char`; each remote call's outcome (the response data or its error)
is an explicit input, since the object store and the relational store are
external collaborators.
-/

namespace Locker

/-- Characters of a Lean string literal, the model of a JS string. -/
def str (s : String) : List Char := s.data

/-- Model of the JS regex class `[a-zA-Z0-9]` (`Char.isAlphanum` is the
ASCII test). -/
def isAlnumChar (c : Char) : Bool := c.isAlphanum

/-- Model of the JS regex class `\w`, that is `[A-Za-z0-9_]`. -/
def isWordChar (c : Char) : Bool := c.isAlphanum || c = '_'

/-- Model of `s.split(sep)` for a one-character separator: every occurrence
splits, empty pieces are kept, and the empty string yields `[""]`. -/
def splitOnChar (sep : Char) : List Char → List (List Char)
  | [] => [[]]
  | c :: cs =>
    match splitOnChar sep cs with
    | [] => [[]]
    | p :: ps => if c = sep then [] :: p :: ps else (c :: p) :: ps

/-- Model of `parts.join(sep)` for a one-character separator. -/
def joinWith (sep : Char) : List (List Char) → List Char
  | [] => []
  | [p] => p
  | p :: ps => p ++ sep :: joinWith sep ps

/-- Model of `s.replace(/\.\w+$/, "")`: the regex matches the one dot that
is followed by a nonempty run of word characters reaching the end of the
string (a later dot inside the run is impossible, an earlier dot has a
non-word character after it), and that match is deleted. -/
def stripExt (l : List Char) : List Char :=
  match (l.reverse).dropWhile isWordChar with
  | c :: rest =>
    if c = '.' ∧ (l.reverse).takeWhile isWordChar ≠ [] then rest.reverse
    else l
  | [] => l

/-- Model of `s.replace(/a/g, b)` for one-character `a` and `b`: every
occurrence is replaced. -/
def replaceChar (a b : Char) (l : List Char) : List Char :=
  l.map fun c => if c = a then b else c

/-- Model of `name.replace(/[^a-zA-Z0-9]/g, "_")` in `uploadDocument`. -/
def sanitizeName (l : List Char) : List Char :=
  l.map fun c => if isAlnumChar c then c else '_'

/-- Decimal digits of a natural number, least significant digit pushed onto
the accumulator; the first argument is recursion fuel, always sufficient
when it exceeds the number of digits. -/
def natDigitsCore : Nat → Nat → List Char → List Char
  | 0, _, acc => acc
  | fuel + 1, n, acc =>
    if n < 10 then Nat.digitChar n :: acc
    else natDigitsCore fuel (n / 10) (Nat.digitChar (n % 10) :: acc)

/-- Decimal rendering of a JS number holding a nonnegative integer, as
`${Date.now()}` produces it. -/
def natDigits (n : Nat) : List Char := natDigitsCore (n + 1) n []

/-- The decoded metadata of a stored filename. -/
structure ParsedName where
  category : List Char
  displayName : List Char
deriving DecidableEq

/-- Model of `parseFilename` of `date-utils.ts`: split the filename on
underscores; with at least three segments, segment 1 is the category and
the remaining segments rejoined (extension stripped, underscores turned
into spaces) are the display name; otherwise category `other` and the
filename itself. -/
def parseFilename (filename : List Char) : ParsedName :=
  let parts := splitOnChar '_' filename
  if 3 ≤ parts.length then
    { category := parts.getD 1 []
      displayName :=
        replaceChar '_' ' ' (stripExt (joinWith '_' (parts.drop 2))) }
  else
    { category := str "other", displayName := filename }

/-- Model of the filename `uploadDocument` stores under (the part of the
path after the prefix): sanitized name joined as
`timestamp_category_name.ext`. -/
def encodeFilename (now : Nat) (category name ext : List Char) :
    List Char :=
  natDigits now ++ '_' :: (category ++ '_' :: (sanitizeName name ++ '.' :: ext))

/-- Model of the full storage path `uploadDocument` chooses. -/
def uploadPath (userId : List Char) (isPrivate : Bool) (now : Nat)
    (category name ext : List Char) : List Char :=
  (if isPrivate then userId ++ str "/private" else userId) ++
    '/' :: encodeFilename now category name ext

/-- An error value the remote store reports on one of its calls. -/
structure StoreError where
  code : Nat
deriving DecidableEq

/-- The outcomes the remote stores would give to each call an operation can
issue (at most one call of each kind per operation): `none` means that call
succeeds, `some e` that it reports `e`.  `nowMs` is what `Date.now()` reads
during the operation. -/
structure RemoteEnv where
  copyErr : Option StoreError
  removeErr : Option StoreError
  assignDelErr : Option StoreError
  shareDelErr : Option StoreError
  deletedDelErr : Option StoreError
  upsertErr : Option StoreError
  nowMs : Nat
deriving DecidableEq

/-- A remote call an operation issues, in issue order: object-store copy,
object-store remove of a batch of keys, a table delete keyed by
`(user_id, document_path)`, or a table upsert of a tracking row. -/
inductive Effect where
  | copy (src dest : List Char)
  | remove (paths : List (List Char))
  | dbDelete (table userId docPath : List Char)
  | dbUpsert (table userId docPath docName : List Char)
deriving DecidableEq

/-- Model of `path.split("/").pop()`: the final slash-segment (`split`
never yields an empty array, so `pop` never yields `undefined`). -/
def lastSegment (path : List Char) : List Char :=
  (splitOnChar '/' path).getLastD []

/-- Model of `supabase.storage.from("documents").getPublicUrl(path)`: the
client derives the URL purely from the key. -/
def publicUrlOf (path : List Char) : List Char :=
  str "https://example.supabase.co/storage/v1/object/public/documents/" ++
    path

/-- Model of `cleanupDocumentReferences`: three table deletes keyed by
`(user_id, document_path)`; every failure is only logged, so the calls made
do not depend on the outcomes and the helper never raises. -/
def cleanupDocumentReferences (userId documentPath : List Char) :
    List Effect :=
  [Effect.dbDelete (str "smart_folder_assignments") userId documentPath,
   Effect.dbDelete (str "document_shares") userId documentPath,
   Effect.dbDelete (str "deleted_documents") userId documentPath]

/-- The trash destination `moveToTrash` computes. -/
def trashDest (userId path : List Char) : List Char :=
  userId ++ str "/trash/" ++ lastSegment path

/-- Model of `moveToTrash`: copy to the trash destination (raise on
failure), remove the original (raise on failure), clean up references for
the original path, then upsert a `deleted_documents` tracking row whose
`document_path` is the original `path` and whose `document_name` is the
filename (`"unknown"` for a falsy, that is empty, filename); the upsert's
failure is only logged.  The second component lists the remote calls
issued. -/
def moveToTrash (env : RemoteEnv) (userId path : List Char) :
    Except StoreError Unit × List Effect :=
  let filename := lastSegment path
  let dest := trashDest userId path
  match env.copyErr with
  | some e => (Except.error e, [Effect.copy path dest])
  | none =>
    match env.removeErr with
    | some e => (Except.error e, [Effect.copy path dest, Effect.remove [path]])
    | none =>
      (Except.ok (),
        Effect.copy path dest :: Effect.remove [path] ::
          (cleanupDocumentReferences userId path ++
            [Effect.dbUpsert (str "deleted_documents") userId path
              (if filename = [] then str "unknown" else filename)]))

/-- What `restoreFromTrash` returns on success. -/
structure RestoreResult where
  path : List Char
  publicUrl : List Char
deriving DecidableEq

/-- The restore destination `restoreFromTrash` computes:
`userId/<Date.now()>_<filename>`, directly under the public prefix. -/
def restoreDest (userId : List Char) (nowMs : Nat) (filename : List Char) :
    List Char :=
  userId ++ '/' :: (natDigits nowMs ++ '_' :: filename)

/-- Model of `restoreFromTrash`: copy the trash key back (raise on
failure), then remove the trash copy with the outcome ignored, then delete
the tracking row for the trash path with a failure only logged, and return
the new path with its public URL. -/
def restoreFromTrash (env : RemoteEnv) (userId filename : List Char) :
    Except StoreError RestoreResult × List Effect :=
  let src := userId ++ str "/trash/" ++ filename
  let dest := restoreDest userId env.nowMs filename
  match env.copyErr with
  | some e => (Except.error e, [Effect.copy src dest])
  | none =>
    (Except.ok { path := dest, publicUrl := publicUrlOf dest },
      [Effect.copy src dest, Effect.remove [src],
        Effect.dbDelete (str "deleted_documents") userId src])

/-- Model of `deletePermanent`: remove the key with the outcome never
inspected, then clean up references keyed on the path's leading slash
segment; no outcome is inspected anywhere, so the operation succeeds
whatever the remote answers. -/
def deletePermanent (env : RemoteEnv) (path : List Char) :
    Except StoreError Unit × List Effect :=
  let userId := (splitOnChar '/' path).headD []
  (Except.ok (),
    Effect.remove [path] :: cleanupDocumentReferences userId path)

/-- One entry of a storage `list` response: the entry's name (the key's
last segment), its `metadata?.size` when present, and its `created_at`
timestamp in milliseconds (the model reads the parsed time directly). -/
structure StorageObj where
  name : List Char
  size : Option Nat
  created_at : Int
deriving DecidableEq

/-- A record of `listUserTrash`. -/
structure TrashRec where
  name : List Char
  path : List Char
  publicUrl : List Char
  size : Nat
  deletedAt : Int
deriving DecidableEq

/-- Model of `listUserTrash` applied to the trash listing's response data:
each entry is mapped to its trash path, URL, `metadata?.size || 0` and
`deletedAt = created_at`; no filtering happens here. -/
def listUserTrash (userId : List Char) (data : List StorageObj) :
    List TrashRec :=
  data.map fun o =>
    { name := o.name
      path := userId ++ str "/trash/" ++ o.name
      publicUrl := publicUrlOf (userId ++ str "/trash/" ++ o.name)
      size := o.size.getD 0
      deletedAt := o.created_at }

/-- Model of `purgeOldTrash` applied to the trash listing's response data:
entries of positive size strictly older than `now − days·24·60·60·1000` are
selected, and one batch remove of their paths is issued when any were
selected.  The result lists the remove calls made (each one a batch of
paths). -/
def purgeOldTrash (nowMs : Int) (userId : List Char) (days : Nat)
    (data : List StorageObj) : List (List (List Char)) :=
  let threshold := nowMs - (days : Int) * 24 * 60 * 60 * 1000
  let toDelete :=
    ((listUserTrash userId data).filter fun t =>
        decide (0 < t.size) && decide (t.deletedAt < threshold)).map
      fun t => t.path
  if toDelete.isEmpty then [] else [toDelete]

/-- A document record `listUserDocuments` returns. -/
structure DocRecord where
  name : List Char
  path : List Char
  publicUrl : List Char
  size : Nat
  category : List Char
  created_at : Int
deriving DecidableEq

/-- The filter `listUserDocuments` applies to a listed entry: a truthy
(nonempty) name containing a dot, and `metadata?.size || 0` positive. -/
def qualifies (o : StorageObj) : Bool :=
  !o.name.isEmpty && o.name.contains '.' && decide (0 < o.size.getD 0)

/-- Model of the regular-prefix half of `listUserDocuments`: qualifying
entries decoded through `parseFilename`, category as decoded. -/
def processRegular (userId : List Char) (data : List StorageObj) :
    List DocRecord :=
  (data.filter qualifies).map fun o =>
    { name := (parseFilename o.name).displayName
      path := userId ++ '/' :: o.name
      publicUrl := publicUrlOf (userId ++ '/' :: o.name)
      size := o.size.getD 0
      category := (parseFilename o.name).category
      created_at := o.created_at }

/-- Model of the private-prefix half of `listUserDocuments`: qualifying
entries decoded through `parseFilename`, category always `private`. -/
def processPrivate (userId : List Char) (data : List StorageObj) :
    List DocRecord :=
  (data.filter qualifies).map fun o =>
    { name := (parseFilename o.name).displayName
      path := userId ++ str "/private/" ++ o.name
      publicUrl := publicUrlOf (userId ++ str "/private/" ++ o.name)
      size := o.size.getD 0
      category := str "private"
      created_at := o.created_at }

/-- The concatenation `[...regularDocs, ...privateDocs]` the function
returns once both listing responses are in hand. -/
def listUserDocumentsPure (userId : List Char)
    (regularData privateData : List StorageObj) : List DocRecord :=
  processRegular userId regularData ++ processPrivate userId privateData

/-- The two listing responses `listUserDocuments` receives from the remote
store (one per prefix; the request parameters, limit 100 sorted by
creation time, are fixed in the request and do not appear in the model). -/
structure ListEnv where
  regularResult : Except StoreError (List StorageObj)
  privateResult : Except StoreError (List StorageObj)

/-- Model of `listUserDocuments`: a regular-listing error is rethrown; a
private-listing error is only logged, leaving `privateData` null so that
`privateData || []` is empty. -/
def listUserDocuments (userId : List Char) (env : ListEnv) :
    Except StoreError (List DocRecord) :=
  match env.regularResult with
  | Except.error e => Except.error e
  | Except.ok regularData =>
    let privateData :=
      match env.privateResult with
      | Except.error _ => []
      | Except.ok d => d
    Except.ok (listUserDocumentsPure userId regularData privateData)

/-- An environment where every remote call succeeds, at the given clock. -/
def okEnv (nowMs : Nat) : RemoteEnv :=
  { copyErr := none, removeErr := none, assignDelErr := none,
    shareDelErr := none, deletedDelErr := none, upsertErr := none,
    nowMs := nowMs }

/-- An environment where the object-store copy fails with the given error
and every other call succeeds. -/
def copyFailEnv (e : StoreError) (nowMs : Nat) : RemoteEnv :=
  { copyErr := some e, removeErr := none, assignDelErr := none,
    shareDelErr := none, deletedDelErr := none, upsertErr := none,
    nowMs := nowMs }

theorem splitOnChar_ne_nil (sep : Char) (l : List Char) :
    splitOnChar sep l ≠ [] := by
  cases l with
  | nil => simp [splitOnChar]
  | cons c cs =>
    simp only [splitOnChar]
    cases splitOnChar sep cs with
    | nil => simp
    | cons p ps =>
      by_cases h : c = sep <;> simp [h]

theorem splitOnChar_no_sep (sep : Char) (l : List Char) (h : sep ∉ l) :
    splitOnChar sep l = [l] := by
  induction l with
  | nil => rfl
  | cons c cs ih =>
    have hc : c ≠ sep := fun hh => h (hh ▸ List.mem_cons_self c cs)
    have hcs : sep ∉ cs := fun hh => h (List.mem_cons_of_mem c hh)
    simp [splitOnChar, ih hcs, hc]

theorem splitOnChar_append_sep (sep : Char) (xs ys : List Char)
    (h : sep ∉ xs) :
    splitOnChar sep (xs ++ sep :: ys) = xs :: splitOnChar sep ys := by
  induction xs with
  | nil =>
    simp only [List.nil_append, splitOnChar]
    cases hy : splitOnChar sep ys with
    | nil => exact absurd hy (splitOnChar_ne_nil sep ys)
    | cons p ps => simp
  | cons c cs ih =>
    have hc : c ≠ sep := fun hh => h (hh ▸ List.mem_cons_self c cs)
    have hcs : sep ∉ cs := fun hh => h (List.mem_cons_of_mem c hh)
    simp only [List.cons_append, splitOnChar, List.append_eq, ih hcs, hc,
      if_false]

theorem joinWith_splitOnChar (sep : Char) (l : List Char) :
    joinWith sep (splitOnChar sep l) = l := by
  induction l with
  | nil => rfl
  | cons c cs ih =>
    simp only [splitOnChar]
    cases hcs : splitOnChar sep cs with
    | nil => exact absurd hcs (splitOnChar_ne_nil sep cs)
    | cons p ps =>
      rw [hcs] at ih
      by_cases h : c = sep
      · subst h
        simp only [if_pos rfl, joinWith, List.nil_append]
        exact congrArg (c :: ·) ih
      · simp only [if_neg h]
        cases ps with
        | nil => simpa [joinWith] using congrArg (c :: ·) ih
        | cons q qs => simpa [joinWith] using congrArg (c :: ·) ih

theorem splitOnChar_length_ge_two (sep : Char) (l : List Char)
    (h : sep ∈ l) : 2 ≤ (splitOnChar sep l).length := by
  induction l with
  | nil => cases h
  | cons c cs ih =>
    simp only [splitOnChar]
    cases hcs : splitOnChar sep cs with
    | nil => exact absurd hcs (splitOnChar_ne_nil sep cs)
    | cons p ps =>
      by_cases hc : c = sep
      · simp [hc]
      · have hm : sep ∈ cs := by
          cases List.mem_cons.mp h with
          | inl hh => exact absurd hh.symm hc
          | inr hh => exact hh
        have := ih hm
        rw [hcs] at this
        simpa [hc] using this

theorem takeWhile_append_stop {p : Char → Bool} (a : List Char) (b : Char)
    (t : List Char) (ha : ∀ c ∈ a, p c = true) (hb : p b = false) :
    (a ++ b :: t).takeWhile p = a ∧ (a ++ b :: t).dropWhile p = b :: t := by
  induction a with
  | nil => simp [List.takeWhile, List.dropWhile, hb]
  | cons c cs ih =>
    have hc : p c = true := ha c (List.mem_cons_self c cs)
    have hcs : ∀ x ∈ cs, p x = true := fun x hx => ha x (List.mem_cons_of_mem c hx)
    have ⟨ih1, ih2⟩ := ih hcs
    constructor
    · simpa [List.takeWhile, hc] using ih1
    · simpa [List.dropWhile, hc] using ih2

theorem stripExt_append_ext (s e : List Char)
    (he : e ≠ []) (hw : ∀ c ∈ e, isWordChar c = true) :
    stripExt (s ++ '.' :: e) = s := by
  have hrev : (s ++ '.' :: e).reverse = e.reverse ++ '.' :: s.reverse := by
    simp
  have hwrev : ∀ c ∈ e.reverse, isWordChar c = true := by
    intro c hc
    exact hw c (List.mem_reverse.mp hc)
  have hdot : isWordChar '.' = false := by decide
  have ⟨htake, hdrop⟩ :=
    takeWhile_append_stop (p := isWordChar) e.reverse '.' s.reverse hwrev hdot
  have hne : e.reverse ≠ [] := by simpa using he
  unfold stripExt
  rw [hrev, hdrop, htake]
  simp [hne]

theorem replaceChar_sanitizeName (n : List Char)
    (hn : ∀ c ∈ n, isAlnumChar c = true ∨ c = ' ') :
    replaceChar '_' ' ' (sanitizeName n) = n := by
  induction n with
  | nil => rfl
  | cons c cs ih =>
    have hcs : ∀ x ∈ cs, isAlnumChar x = true ∨ x = ' ' := fun x hx =>
      hn x (List.mem_cons_of_mem c hx)
    have ihc := ih hcs
    cases hn c (List.mem_cons_self c cs) with
    | inl h =>
      have hne : c ≠ '_' := by
        intro hh
        rw [hh] at h
        exact absurd h (by decide)
      simp only [sanitizeName, List.map_cons, h, if_true, replaceChar] at *
      simp [hne, ihc]
    | inr h =>
      subst h
      have hsp : isAlnumChar ' ' = false := by decide
      simp only [sanitizeName, List.map_cons, hsp, Bool.false_eq_true,
        if_false, replaceChar] at *
      simp [ihc]

theorem sanitizeName_no_dot (n : List Char) : '.' ∉ sanitizeName n := by
  intro h
  unfold sanitizeName at h
  rcases List.mem_map.mp h with ⟨c, _, hc⟩
  by_cases hA : isAlnumChar c = true
  · rw [if_pos hA] at hc
    subst hc
    exact absurd hA (by decide)
  · rw [if_neg hA] at hc
    cases hc

theorem replaceChar_id_of_not_mem (a b : Char) (l : List Char)
    (h : a ∉ l) : replaceChar a b l = l := by
  induction l with
  | nil => rfl
  | cons c cs ih =>
    have hc : c ≠ a := fun hh => h (hh ▸ List.mem_cons_self c cs)
    have hcs : a ∉ cs := fun hh => h (List.mem_cons_of_mem c hh)
    have ih2 := ih hcs
    unfold replaceChar at ih2 ⊢
    simp [hc, ih2]

theorem digitChar_isDigit (m : Nat) (h : m < 10) :
    (Nat.digitChar m).isDigit = true := by
  have : ∀ k < 10, (Nat.digitChar k).isDigit = true := by decide
  exact this m h

theorem natDigitsCore_all_digit (fuel : Nat) :
    ∀ n acc, (∀ c ∈ acc, c.isDigit = true) →
      ∀ c ∈ natDigitsCore fuel n acc, c.isDigit = true := by
  induction fuel with
  | zero => intro n acc hacc; exact hacc
  | succ fuel ih =>
    intro n acc hacc
    unfold natDigitsCore
    by_cases h : n < 10
    · rw [if_pos h]
      intro c hc
      cases List.mem_cons.mp hc with
      | inl hh => exact hh ▸ digitChar_isDigit n h
      | inr hh => exact hacc c hh
    · rw [if_neg h]
      refine ih (n / 10) (Nat.digitChar (n % 10) :: acc) ?_
      intro c hc
      cases List.mem_cons.mp hc with
      | inl hh => exact hh ▸ digitChar_isDigit (n % 10) (Nat.mod_lt n (by omega))
      | inr hh => exact hacc c hh

theorem natDigits_all_digit (n : Nat) :
    ∀ c ∈ natDigits n, c.isDigit = true :=
  natDigitsCore_all_digit (n + 1) n [] (by intro c hc; cases hc)

theorem natDigitsCore_ne_nil (fuel : Nat) :
    ∀ n acc, 0 < fuel ∨ acc ≠ [] → natDigitsCore fuel n acc ≠ [] := by
  induction fuel with
  | zero =>
    intro n acc h
    cases h with
    | inl hh => exact absurd hh (by omega)
    | inr hh => exact hh
  | succ fuel ih =>
    intro n acc _
    unfold natDigitsCore
    by_cases h : n < 10
    · rw [if_pos h]; simp
    · rw [if_neg h]
      exact ih (n / 10) (Nat.digitChar (n % 10) :: acc) (Or.inr (by simp))

theorem natDigits_ne_nil (n : Nat) : natDigits n ≠ [] :=
  natDigitsCore_ne_nil (n + 1) n [] (Or.inl (by omega))

theorem underscore_not_mem_natDigits (n : Nat) : '_' ∉ natDigits n := by
  intro h
  have := natDigits_all_digit n '_' h
  exact absurd this (by decide)

theorem join_batch (l : List (List Char)) :
    (if l.isEmpty then ([] : List (List (List Char))) else [l]).flatten
      = l := by
  cases l <;> simp

theorem batch_length_le_one (l : List (List Char)) :
    (if l.isEmpty then ([] : List (List (List Char))) else [l]).length ≤ 1 := by
  cases l <;> simp

/-- C5: a filename splitting into fewer than three underscore-segments
decodes to category `other` and the filename itself, unchanged. -/
theorem parseFilename_malformed_unchanged (filename : List Char)
    (h : (splitOnChar '_' filename).length < 3) :
    parseFilename filename =
      { category := str "other", displayName := filename } := by
  unfold parseFilename
  rw [if_neg (by omega)]

theorem parseFilename_malformed_unchanged_witness :
    parseFilename (str "randomfile.pdf") =
      { category := str "other", displayName := str "randomfile.pdf" } :=
  parseFilename_malformed_unchanged (str "randomfile.pdf") (by decide)

/-- C7: `deletePermanent` succeeds whatever the remote answers (no outcome
is inspected), and always issues the object remove followed by the three
reference-cleanup deletes keyed on the path's leading slash segment. -/
theorem deletePermanent_never_raises (env : RemoteEnv) (path : List Char) :
    (deletePermanent env path).1 = Except.ok () ∧
    (deletePermanent env path).2 =
      [Effect.remove [path],
       Effect.dbDelete (str "smart_folder_assignments")
         ((splitOnChar '/' path).headD []) path,
       Effect.dbDelete (str "document_shares")
         ((splitOnChar '/' path).headD []) path,
       Effect.dbDelete (str "deleted_documents")
         ((splitOnChar '/' path).headD []) path] :=
  ⟨rfl, rfl⟩

/-- C1 (failing): on a successful `moveToTrash` of `u/doc.pdf` the tracking
upsert carries `document_path = u/doc.pdf`, the original path and not the
trash path `u/trash/doc.pdf`, while `restoreFromTrash` deletes the tracking
row keyed by the trash path, which therefore never matches the row the move
wrote. -/
theorem moveToTrash_upsert_keeps_original_path :
    (moveToTrash (okEnv 1000) (str "u") (str "u/doc.pdf")).2 =
      [Effect.copy (str "u/doc.pdf") (str "u/trash/doc.pdf"),
       Effect.remove [str "u/doc.pdf"],
       Effect.dbDelete (str "smart_folder_assignments") (str "u")
         (str "u/doc.pdf"),
       Effect.dbDelete (str "document_shares") (str "u") (str "u/doc.pdf"),
       Effect.dbDelete (str "deleted_documents") (str "u") (str "u/doc.pdf"),
       Effect.dbUpsert (str "deleted_documents") (str "u") (str "u/doc.pdf")
         (str "doc.pdf")] ∧
    (str "u/doc.pdf" : List Char) ≠ str "u/trash/doc.pdf" ∧
    Effect.dbDelete (str "deleted_documents") (str "u")
        (str "u/trash/doc.pdf") ∈
      (restoreFromTrash (okEnv 1000) (str "u") (str "doc.pdf")).2 :=
  ⟨by decide, by decide, by decide⟩

/-- C2 (counterexample): with the category `a_b`, allowed by
`[A-Za-z0-9_]+`, and the name `x`, decode of encode does not return the
encoded category and name: the decoder splits the category at its
underscore. -/
theorem roundtrip_fails_for_underscored_category :
    parseFilename (encodeFilename 1 (str "a_b") (str "x") (str "pdf")) ≠
      { category := str "a_b", displayName := str "x" } := by decide

/-- C6: when the initial copy fails, both `moveToTrash` and
`restoreFromTrash` raise that very error after having issued nothing but
the failed copy: no remove, no reference cleanup, and no tracking-row write
or delete. -/
theorem copy_failure_aborts (env : RemoteEnv) (e : StoreError)
    (userId path filename : List Char) (h : env.copyErr = some e) :
    moveToTrash env userId path =
      (Except.error e, [Effect.copy path (trashDest userId path)]) ∧
    restoreFromTrash env userId filename =
      (Except.error e,
        [Effect.copy (userId ++ str "/trash/" ++ filename)
          (restoreDest userId env.nowMs filename)]) := by
  unfold moveToTrash restoreFromTrash
  rw [h]
  exact ⟨rfl, rfl⟩

theorem copy_failure_aborts_witness :
    moveToTrash (copyFailEnv ⟨7⟩ 5) (str "u") (str "u/a.pdf") =
      (Except.error ⟨7⟩,
        [Effect.copy (str "u/a.pdf") (trashDest (str "u") (str "u/a.pdf"))]) ∧
    restoreFromTrash (copyFailEnv ⟨7⟩ 5) (str "u") (str "a.pdf") =
      (Except.error ⟨7⟩,
        [Effect.copy (str "u" ++ str "/trash/" ++ str "a.pdf")
          (restoreDest (str "u") (copyFailEnv ⟨7⟩ 5).nowMs (str "a.pdf"))]) :=
  copy_failure_aborts (copyFailEnv ⟨7⟩ 5) ⟨7⟩ (str "u") (str "u/a.pdf")
    (str "a.pdf") rfl

/-- C8: a regular-listing error makes `listUserDocuments` raise it, while a
private-listing error alone leaves the call succeeding with exactly the
regular-prefix documents. -/
theorem listUserDocuments_error_handling (userId : List Char)
    (env : ListEnv) (e : StoreError) :
    (env.regularResult = Except.error e →
      listUserDocuments userId env = Except.error e) ∧
    (∀ regularData, env.regularResult = Except.ok regularData →
      env.privateResult = Except.error e →
      listUserDocuments userId env =
        Except.ok (processRegular userId regularData)) := by
  constructor
  · intro h
    unfold listUserDocuments
    rw [h]
  · intro rd h1 h2
    unfold listUserDocuments
    rw [h1, h2]
    simp [listUserDocumentsPure, processPrivate]

/-- C3: `purgeOldTrash` issues at most one batch remove, and a path is
removed exactly when some listed trash entry carries it with a positive
size and a recorded deletion time strictly before `now − days·86400000`. -/
theorem purgeOldTrash_selects_old_nonzero (nowMs : Int) (userId : List Char)
    (days : Nat) (data : List StorageObj) :
    (purgeOldTrash nowMs userId days data).length ≤ 1 ∧
    ∀ p, p ∈ (purgeOldTrash nowMs userId days data).flatten ↔
      ∃ o ∈ data, p = userId ++ str "/trash/" ++ o.name ∧
        0 < o.size.getD 0 ∧
        o.created_at < nowMs - (days : Int) * 86400000 := by
  have harith : nowMs - (days : Int) * 24 * 60 * 60 * 1000 =
      nowMs - (days : Int) * 86400000 := by ring
  constructor
  · unfold purgeOldTrash
    exact batch_length_le_one _
  · intro p
    unfold purgeOldTrash listUserTrash
    rw [join_batch]
    constructor
    · intro hp
      rcases List.mem_map.mp hp with ⟨t, ht, rfl⟩
      rcases List.mem_filter.mp ht with ⟨hmem, hcond⟩
      rcases List.mem_map.mp hmem with ⟨o, ho, rfl⟩
      simp only [Bool.and_eq_true, decide_eq_true_eq] at hcond
      exact ⟨o, ho, rfl, hcond.1, harith ▸ hcond.2⟩
    · rintro ⟨o, ho, rfl, h1, h2⟩
      apply List.mem_map.mpr
      refine ⟨_, List.mem_filter.mpr ⟨List.mem_map.mpr ⟨o, ho, rfl⟩, ?_⟩, rfl⟩
      simp only [Bool.and_eq_true, decide_eq_true_eq]
      exact ⟨h1, harith.symm ▸ h2⟩

/-- C4: every document `listUserDocuments` returns has positive size and
stems from a listed entry whose name contains a dot (entries of size zero
or without a dot are dropped), and every document built from the private
listing reports category `private` regardless of its encoded category. -/
theorem listUserDocuments_filter_and_private (userId : List Char)
    (regularData privateData : List StorageObj) :
    (∀ d ∈ listUserDocumentsPure userId regularData privateData,
        0 < d.size ∧
        ∃ o, (o ∈ regularData ∨ o ∈ privateData) ∧
          o.name.contains '.' = true ∧ o.size.getD 0 = d.size ∧
          (d.path = userId ++ '/' :: o.name ∨
            d.path = userId ++ str "/private/" ++ o.name)) ∧
    (∀ d ∈ processPrivate userId privateData,
        d.category = str "private") := by
  constructor
  · intro d hd
    cases List.mem_append.mp hd with
    | inl hreg =>
      rcases List.mem_map.mp hreg with ⟨o, ho, rfl⟩
      have hq := (List.mem_filter.mp ho).2
      simp only [qualifies, Bool.and_eq_true, decide_eq_true_eq] at hq
      exact ⟨hq.2, o, Or.inl (List.mem_filter.mp ho).1, hq.1.2, rfl,
        Or.inl rfl⟩
    | inr hpriv =>
      rcases List.mem_map.mp hpriv with ⟨o, ho, rfl⟩
      have hq := (List.mem_filter.mp ho).2
      simp only [qualifies, Bool.and_eq_true, decide_eq_true_eq] at hq
      exact ⟨hq.2, o, Or.inr (List.mem_filter.mp ho).1, hq.1.2, rfl,
        Or.inr rfl⟩
  · intro d hd
    rcases List.mem_map.mp hd with ⟨o, _, rfl⟩
    rfl

theorem getLastQ_splitOnChar_append (sep : Char) (xs ys : List Char)
    (h : sep ∉ ys) :
    (splitOnChar sep (xs ++ sep :: ys)).getLast? = some ys := by
  induction xs with
  | nil =>
    rw [List.nil_append]
    have hstep : splitOnChar sep (sep :: ys) = [] :: splitOnChar sep ys := by
      simp only [splitOnChar]
      cases hy : splitOnChar sep ys with
      | nil => exact absurd hy (splitOnChar_ne_nil sep ys)
      | cons p ps => simp
    rw [hstep, splitOnChar_no_sep sep ys h]
    rfl
  | cons c cs ih =>
    rw [List.cons_append]
    have h2 : 2 ≤ (splitOnChar sep (cs ++ sep :: ys)).length :=
      splitOnChar_length_ge_two sep _ (by simp)
    simp only [splitOnChar, List.append_eq]
    cases hy : splitOnChar sep (cs ++ sep :: ys) with
    | nil => exact absurd hy (splitOnChar_ne_nil sep _)
    | cons p ps =>
      rw [hy] at ih h2
      cases ps with
      | nil => simp at h2
      | cons q qs =>
        dsimp only
        by_cases hc : c = sep
        · rw [if_pos hc]
          rw [List.getLast?_cons_cons] at ih ⊢
          exact ih
        · rw [if_neg hc]
          rw [List.getLast?_cons_cons] at ih ⊢
          exact ih

theorem lastSegment_append (xs ys : List Char) (h : '/' ∉ ys) :
    lastSegment (xs ++ '/' :: ys) = ys := by
  unfold lastSegment
  rw [List.getLastD_eq_getLast?, getLastQ_splitOnChar_append '/' xs ys h]
  rfl

/-- C2 (amended): for a category of alphanumerics only (no underscore) and
a name of alphanumerics and spaces, decode of encode returns the category
and the name, spaces carried through the underscore normalization. -/
theorem roundtrip_alnum_category (t : Nat) (c n : List Char)
    (hcne : c ≠ []) (hc : ∀ ch ∈ c, isAlnumChar ch = true)
    (hn : ∀ ch ∈ n, isAlnumChar ch = true ∨ ch = ' ') :
    parseFilename (encodeFilename t c n (str "pdf")) =
      { category := c, displayName := n } := by
  have htd : '_' ∉ natDigits t := underscore_not_mem_natDigits t
  have hcd : '_' ∉ c := by
    intro h
    exact absurd (hc '_' h) (by decide)
  have hsplit : splitOnChar '_' (encodeFilename t c n (str "pdf")) =
      natDigits t :: c ::
        splitOnChar '_' (sanitizeName n ++ '.' :: str "pdf") := by
    unfold encodeFilename
    rw [splitOnChar_append_sep '_' _ _ htd, splitOnChar_append_sep '_' _ _ hcd]
  have hne := splitOnChar_ne_nil '_' (sanitizeName n ++ '.' :: str "pdf")
  have hlen : 1 ≤ (splitOnChar '_' (sanitizeName n ++ '.' :: str "pdf")).length :=
    List.length_pos.mpr hne
  simp only [parseFilename]
  rw [hsplit]
  rw [if_pos (by simp only [List.length_cons]; omega)]
  simp only [List.getD_cons_succ, List.getD_cons_zero, List.drop_succ_cons,
    List.drop_zero]
  rw [joinWith_splitOnChar]
  rw [stripExt_append_ext (sanitizeName n) (str "pdf") (by decide) (by decide)]
  rw [replaceChar_sanitizeName n hn]

theorem roundtrip_alnum_category_witness :
    parseFilename
        (encodeFilename 123 (str "notes") (str "tax report 2024")
          (str "pdf")) =
      { category := str "notes", displayName := str "tax report 2024" } :=
  roundtrip_alnum_category 123 (str "notes") (str "tax report 2024")
    (by decide) (by decide) (by decide)

/-- C9: the trash copy is named by the path's final slash-segment only, the
restore destination sits directly under the public prefix
`userId/<timestamp>_<filename>`, and for a document trashed from the
private prefix the restored key cannot lie under `userId/private/`: the
restore drops private visibility. -/
theorem trash_last_segment_restore_public (env : RemoteEnv)
    (userId path fname : List Char) (h : '/' ∉ fname) :
    trashDest userId path = userId ++ str "/trash/" ++ lastSegment path ∧
    lastSegment (userId ++ str "/private/" ++ fname) = fname ∧
    restoreDest userId env.nowMs fname =
      userId ++ '/' :: (natDigits env.nowMs ++ '_' :: fname) ∧
    ¬ ∃ tail, restoreDest userId env.nowMs fname =
        userId ++ str "/private/" ++ tail := by
  refine ⟨rfl, ?_, rfl, ?_⟩
  · have hsplit : userId ++ str "/private/" ++ fname =
        (userId ++ str "/private") ++ '/' :: fname := by
      have h1 : str "/private/" = str "/private" ++ ['/'] := rfl
      rw [h1]
      simp
    rw [hsplit]
    exact lastSegment_append _ _ h
  · rintro ⟨tail, htail⟩
    unfold restoreDest at htail
    have h1 : str "/private/" = '/' :: str "private/" := rfl
    rw [h1] at htail
    simp only [List.cons_append, List.append_assoc] at htail
    have htail2 : ('/' : Char) :: (natDigits env.nowMs ++ '_' :: fname) =
        '/' :: (str "private/" ++ tail) := by
      exact List.append_cancel_left htail
    have htail3 : natDigits env.nowMs ++ '_' :: fname =
        str "private/" ++ tail := by
      exact (List.cons.injEq _ _ _ _).mp htail2 |>.2
    cases hd : natDigits env.nowMs with
    | nil => exact absurd hd (natDigits_ne_nil env.nowMs)
    | cons d ds =>
      rw [hd] at htail3
      have hp : str "private/" = 'p' :: str "rivate/" := rfl
      rw [hp, List.cons_append, List.cons_append] at htail3
      have hdp : d = 'p' := ((List.cons.injEq _ _ _ _).mp htail3).1
      have hdig : d.isDigit = true :=
        natDigits_all_digit env.nowMs d (hd ▸ List.mem_cons_self d ds)
      rw [hdp] at hdig
      exact absurd hdig (by decide)

theorem trash_last_segment_restore_public_witness :
    trashDest (str "u") (str "u/private/a.pdf") =
      str "u" ++ str "/trash/" ++ lastSegment (str "u/private/a.pdf") ∧
    lastSegment (str "u" ++ str "/private/" ++ str "a.pdf") = str "a.pdf" ∧
    restoreDest (str "u") (okEnv 3).nowMs (str "a.pdf") =
      str "u" ++ '/' :: (natDigits (okEnv 3).nowMs ++ '_' :: str "a.pdf") ∧
    ¬ ∃ tail, restoreDest (str "u") (okEnv 3).nowMs (str "a.pdf") =
        str "u" ++ str "/private/" ++ tail :=
  trash_last_segment_restore_public (okEnv 3) (str "u")
    (str "u/private/a.pdf") (str "a.pdf") (by decide)

/-- C10: restoring a document originally named
`<t1>_<cat>_<name>.<ext>` keys it as `<t2>_<t1>_<cat>_<name>.<ext>`, and
the decoder then reports the original timestamp `t1` as the category and
`<cat> <name>` as the display name: the original category is no longer the
decoded category. -/
theorem restored_name_decodes_timestamp_as_category (t2 : Nat)
    (userId t1 cat name ext : List Char)
    (h1 : '_' ∉ t1) (h2 : '_' ∉ cat)
    (h5 : ext ≠ []) (h6 : ∀ ch ∈ ext, isWordChar ch = true) :
    restoreDest userId t2
        (t1 ++ '_' :: (cat ++ '_' :: (name ++ '.' :: ext))) =
      userId ++ '/' :: (natDigits t2 ++ '_' ::
        (t1 ++ '_' :: (cat ++ '_' :: (name ++ '.' :: ext)))) ∧
    parseFilename (natDigits t2 ++ '_' ::
        (t1 ++ '_' :: (cat ++ '_' :: (name ++ '.' :: ext)))) =
      { category := t1,
        displayName := cat ++ ' ' :: replaceChar '_' ' ' name } := by
  refine ⟨rfl, ?_⟩
  have ht2 : '_' ∉ natDigits t2 := underscore_not_mem_natDigits t2
  have hsplit : splitOnChar '_' (natDigits t2 ++ '_' ::
      (t1 ++ '_' :: (cat ++ '_' :: (name ++ '.' :: ext)))) =
      natDigits t2 :: t1 ::
        splitOnChar '_' (cat ++ '_' :: (name ++ '.' :: ext)) := by
    rw [splitOnChar_append_sep '_' _ _ ht2, splitOnChar_append_sep '_' _ _ h1]
  have hne := splitOnChar_ne_nil '_' (cat ++ '_' :: (name ++ '.' :: ext))
  have hlen : 1 ≤ (splitOnChar '_' (cat ++ '_' :: (name ++ '.' :: ext))).length :=
    List.length_pos.mpr hne
  simp only [parseFilename]
  rw [hsplit]
  rw [if_pos (by simp only [List.length_cons]; omega)]
  simp only [List.getD_cons_succ, List.getD_cons_zero, List.drop_succ_cons,
    List.drop_zero]
  rw [joinWith_splitOnChar]
  have hassoc : cat ++ '_' :: (name ++ '.' :: ext) =
      (cat ++ '_' :: name) ++ '.' :: ext := by simp
  rw [hassoc, stripExt_append_ext (cat ++ '_' :: name) ext h5 h6]
  have hmap : replaceChar '_' ' ' (cat ++ '_' :: name) =
      replaceChar '_' ' ' cat ++ ' ' :: replaceChar '_' ' ' name := by
    unfold replaceChar
    simp
  rw [hmap, replaceChar_id_of_not_mem '_' ' ' cat h2]

theorem restored_name_decodes_timestamp_as_category_witness :
    restoreDest (str "u") 2
        (str "100" ++ '_' :: (str "work" ++ '_' ::
          (str "report" ++ '.' :: str "pdf"))) =
      str "u" ++ '/' :: (natDigits 2 ++ '_' ::
        (str "100" ++ '_' :: (str "work" ++ '_' ::
          (str "report" ++ '.' :: str "pdf")))) ∧
    parseFilename (natDigits 2 ++ '_' ::
        (str "100" ++ '_' :: (str "work" ++ '_' ::
          (str "report" ++ '.' :: str "pdf")))) =
      { category := str "100",
        displayName := str "work" ++ ' ' ::
          replaceChar '_' ' ' (str "report") } :=
  restored_name_decodes_timestamp_as_category 2 (str "u") (str "100")
    (str "work") (str "report") (str "pdf") (by decide) (by decide)
    (by decide) (by decide)

end Locker
